import Mathlib

/-!
Verification development for a RAG document-generation service.

The core under study is `app/services/document_processor.py` (sentence
segmentation and token-budgeted chunking), `app/services/llm_service.py`
(generation orchestration and source attribution),
`app/services/vector_store.py` (filter construction and chunk storage) and
`app/services/embedding_service.py` (batched embedding with empty-input
handling).

Text handled by the segmenter and chunker is modelled as `List Char`
(Python strings, one element per code point).  The token counter
(`tiktoken` in the source) is an external collaborator and is kept as an
abstract parameter `tok : List Char → Nat`; `tokLen` below is a concrete
instantiation used for witnesses.  Similarity scores (Python floats) are
modelled as rationals: the code only compares them against the literals
0.8 / 0.6 / 0.4, and those comparisons are order-faithful.
-/

abbrev Str := List Char

/-- Whitespace characters recognised by Python's `str.split()` /
`str.strip()` for ASCII text: space, tab, newline, carriage return,
vertical tab and form feed. -/
def isWs (c : Char) : Bool :=
  c = ' ' || c = '\t' || c = '\n' || c = '\r' || c = '\x0b' || c = '\x0c'

/-- Worker for `pyWords`: `cur` is the word currently being accumulated. -/
def pyWordsGo (cur : Str) : Str → List Str
  | [] => if cur = [] then [] else [cur]
  | c :: rest =>
    if isWs c then
      if cur = [] then pyWordsGo [] rest else cur :: pyWordsGo [] rest
    else
      pyWordsGo (cur ++ [c]) rest

/-- Python `text.split()`: split on runs of whitespace, discarding empty
pieces. -/
def pyWords (t : Str) : List Str := pyWordsGo [] t

/-- `" ".join(text.split())` — the whitespace normalisation performed at the
top of `DocumentProcessor._split_into_sentences`. -/
def normalizeWs (t : Str) : Str := List.intercalate [' '] (pyWords t)

/-- Python `s.strip()`: remove leading and trailing whitespace. -/
def strip (t : Str) : Str :=
  ((t.dropWhile isWs).reverse.dropWhile isWs).reverse

/-- Python `text.split("\n")`: split on each newline, keeping empty pieces. -/
def pySplitLines : Str → List Str
  | [] => [[]]
  | c :: rest =>
    if c = '\n' then [] :: pySplitLines rest
    else
      match pySplitLines rest with
      | [] => [[c]]
      | w :: ws => (c :: w) :: ws

/-- One character of the sentence scan in
`DocumentProcessor._split_into_sentences`: append `c` to the running
buffer; on `.`/`!`/`?` with a non-blank buffer, flush the stripped buffer
as a sentence when its length exceeds 2 (the abbreviation guard),
otherwise keep accumulating. -/
def scanStep (st : List Str × Str) (c : Char) : List Str × Str :=
  let cur := st.2 ++ [c]
  if (c = '.' ∨ c = '!' ∨ c = '?') ∧ 0 < (strip cur).length then
    let stripped := strip cur
    if 2 < stripped.length then (st.1 ++ [stripped], []) else (st.1, cur)
  else (st.1, cur)

/-- The punctuation scan of `_split_into_sentences` including the trailing
flush of a non-blank buffer (the state of `sentences` just before the
newline fallback). -/
def scanSentences (t : Str) : List Str :=
  let r := t.foldl scanStep ([], [])
  r.1 ++ (if strip r.2 = [] then [] else [strip r.2])

/-- `DocumentProcessor._split_into_sentences`: normalise whitespace, run the
punctuation scan, fall back to newline splitting (stripping each line and
discarding blank ones) when the scan produced nothing, and finally return
the whole (normalised) text as a single sentence if even that is empty. -/
def splitIntoSentences (text : Str) : List Str :=
  let t := normalizeWs text
  let sentences := scanSentences t
  let sentences2 :=
    if sentences = [] then
      ((pySplitLines t).map strip).filter (fun s => ¬s = [])
    else sentences
  if sentences2 = [] then [t] else sentences2

/-- Sum of per-part token counts of a chunk (the quantity the source tracks
in `current_tokens` / `overlap_tokens`). -/
def sumTok (tok : Str → Nat) (c : List Str) : Nat := (c.map tok).sum

/-- Sum of padded token counts `tok (w + " ")` — the quantity tracked in
`temp_tokens` on the long-sentence path. -/
def sumPad (tok : Str → Nat) (c : List Str) : Nat :=
  (c.map (fun w => tok (w ++ [' ']))).sum

/-- Worker for the long-sentence word loop of `_chunk_text` (lines 63-82):
accumulate words into `temp` whose padded token total is `tt`; when the
next word would overflow `chunk_size`, emit `temp` (if non-empty) and
restart from that word. -/
def slsGo (tok : Str → Nat) (chunk_size : Nat) (temp : List Str) (tt : Nat) :
    List Str → List (List Str)
  | [] => if temp = [] then [] else [temp]
  | w :: rest =>
    let wt := tok (w ++ [' '])
    if chunk_size < tt + wt then
      (if temp = [] then [] else [temp]) ++ slsGo tok chunk_size [w] wt rest
    else
      slsGo tok chunk_size (temp ++ [w]) (tt + wt) rest

/-- The long-sentence path of `_chunk_text`: split the sentence's words into
complete word-based chunks. -/
def splitLongSentence (tok : Str → Nat) (chunk_size : Nat) (ws : List Str) :
    List (List Str) :=
  slsGo tok chunk_size [] 0 ws

/-- Worker for `overlapWindow`: walk the reversed sentence list, prepending
whole sentences while the running total stays within `overlap`; stop at the
first sentence that does not fit. -/
def owGo (tok : Str → Nat) (overlap : Nat) (acc : List Str) (at_ : Nat) :
    List Str → List Str × Nat
  | [] => (acc, at_)
  | s :: rest =>
    if at_ + tok s ≤ overlap then owGo tok overlap (s :: acc) (at_ + tok s) rest
    else (acc, at_)

/-- The overlap seeding of `_chunk_text` (lines 96-106): the sentences carried
from the just-flushed chunk into the next one, with their token total. -/
def overlapWindow (tok : Str → Nat) (overlap : Nat) (l : List Str) :
    List Str × Nat :=
  owGo tok overlap [] 0 l.reverse

/-- Loop state of `_chunk_text`: emitted chunks (each kept as its list of
parts; the source stores `" ".join(parts)"` which `chunkJoined` recovers),
the accumulating chunk, and the tracked token total `current_tokens`. -/
structure ChunkState where
  chunks : List (List Str)
  current : List Str
  curTok : Nat

/-- One iteration of the sentence loop of `_chunk_text` (lines 51-114). -/
def stepSentence (tok : Str → Nat) (chunk_size overlap : Nat)
    (st : ChunkState) (sentence : Str) : ChunkState :=
  let sentence_tokens := tok sentence
  if chunk_size < sentence_tokens then
    let chunks1 := if st.current = [] then st.chunks else st.chunks ++ [st.current]
    ⟨chunks1 ++ splitLongSentence tok chunk_size (pyWords sentence), [], 0⟩
  else if chunk_size < st.curTok + sentence_tokens then
    let chunks1 := if st.current = [] then st.chunks else st.chunks ++ [st.current]
    if 0 < overlap ∧ ¬st.current = [] then
      let ow := overlapWindow tok overlap st.current
      ⟨chunks1, ow.1 ++ [sentence], ow.2 + sentence_tokens⟩
    else
      ⟨chunks1, [sentence], sentence_tokens⟩
  else
    ⟨st.chunks, st.current ++ [sentence], st.curTok + sentence_tokens⟩

/-- `_chunk_text` run on an explicit sentence list, keeping each chunk as its
list of parts (sentences, or words on the long-sentence path). -/
def chunkSentences (tok : Str → Nat) (chunk_size overlap : Nat)
    (sentences : List Str) : List (List Str) :=
  let final := sentences.foldl (stepSentence tok chunk_size overlap) ⟨[], [], 0⟩
  if final.current = [] then final.chunks else final.chunks ++ [final.current]

/-- The chunk strings produced from a sentence list: each part list joined by
single spaces, exactly as `chunks.append(" ".join(...))` does. -/
def chunkJoined (tok : Str → Nat) (chunk_size overlap : Nat)
    (sentences : List Str) : List Str :=
  (chunkSentences tok chunk_size overlap sentences).map (List.intercalate [' '])

/-- `DocumentProcessor._chunk_text`: segment the text and chunk the resulting
sentences. -/
def chunkText (tok : Str → Nat) (chunk_size overlap : Nat) (text : Str) :
    List Str :=
  chunkJoined tok chunk_size overlap (splitIntoSentences text)

/-- Concrete stand-in tokenizer used for witnesses and counterexamples: one
token per character.  The source's `tiktoken` encoder is an external
collaborator; every statement below is parametric in the token counter. -/
def tokLen (s : Str) : Nat := s.length

/-! ## Source attribution and generation orchestration (`llm_service.py`)

Similarity scores are rationals standing for the floats compared against
the literals 0.8/0.6/0.4; `fmt` abstracts Python's percent formatting of a
score and `round4` the display rounding `round(score, 4)` — both affect
only rendered strings/fields, never control flow. -/

/-- A retrieval hit as formatted by `VectorStoreService.search`
(lines 186-196). -/
structure Hit where
  document_id : String
  filename : String
  chunk_index : Nat
  total_chunks : Nat
  chunk_text : String
  uploaded_at : String
  score : ℚ
deriving DecidableEq

/-- A source record as built by `LLMService._create_source_documents`
(the fields of `schemas.SourceDocument`). -/
structure SourceDocument where
  document_id : String
  filename : String
  relevance_score : ℚ
  excerpt : String
  chunk_index : Nat
  reason : String
deriving DecidableEq

/-- The four relevance buckets of the attribution cascade. -/
inductive RelevanceBucket
  | veryHigh
  | high
  | moderate
  | low
deriving DecidableEq

/-- The bucket chosen by the cascading conditionals of
`_create_source_documents` (lines 75-82): inclusive lower bounds at
0.8, 0.6 and 0.4. -/
def scoreBucket (s : ℚ) : RelevanceBucket :=
  if 4/5 ≤ s then .veryHigh
  else if 3/5 ≤ s then .high
  else if 2/5 ≤ s then .moderate
  else .low

/-- The fixed explanation template of each bucket, around the formatted
percentage. -/
def bucketReason (b : RelevanceBucket) (pct : String) : String :=
  match b with
  | .veryHigh => "Very high semantic similarity (" ++ pct ++ ") - directly relevant to your query"
  | .high => "High semantic similarity (" ++ pct ++ ") - contains relevant information"
  | .moderate => "Moderate semantic similarity (" ++ pct ++ ") - contains related context"
  | .low => "Lower semantic similarity (" ++ pct ++ ") - may contain tangentially related information"

/-- `LLMService._create_source_documents`: bucketed reason, excerpt
truncation at 500 characters (truncate to 497 and append an ellipsis), and
passthrough of the hit's metadata. -/
def createSourceDocuments (fmt : ℚ → String) (round4 : ℚ → ℚ)
    (chunks : List Hit) : List SourceDocument :=
  chunks.map (fun chunk =>
    let score := chunk.score
    let reason :=
      if 4/5 ≤ score then
        "Very high semantic similarity (" ++ fmt score ++ ") - directly relevant to your query"
      else if 3/5 ≤ score then
        "High semantic similarity (" ++ fmt score ++ ") - contains relevant information"
      else if 2/5 ≤ score then
        "Moderate semantic similarity (" ++ fmt score ++ ") - contains related context"
      else
        "Lower semantic similarity (" ++ fmt score ++ ") - may contain tangentially related information"
    let excerpt :=
      if 500 < chunk.chunk_text.length then chunk.chunk_text.take 497 ++ "..."
      else chunk.chunk_text
    { document_id := chunk.document_id
      filename := chunk.filename
      relevance_score := round4 score
      excerpt := excerpt
      chunk_index := chunk.chunk_index
      reason := reason })

/-- `LLMService._build_context`: each hit rendered as a labelled block, with
1-based ranks, joined by the separator line. -/
def buildContext (chunks : List Hit) : String :=
  String.intercalate "\n---\n"
    (chunks.enum.map (fun p =>
      "[Source " ++ toString (p.1 + 1) ++ ": " ++ p.2.filename ++ "]\n"
        ++ p.2.chunk_text ++ "\n"))

/-- The `general` entry of `LLMService.GENERATION_PROMPTS`. -/
def GENERAL_PROMPT : String :=
  "You are a helpful assistant that generates content based on provided source material.\nRespond to the user\x27s request accurately and helpfully.\nStructure your response appropriately for the type of content requested.\nIMPORTANT: Only use information from the provided context. Do not invent or assume any facts."

/-- `LLMService.GENERATION_PROMPTS` as a keyed lookup. -/
def GENERATION_PROMPTS (key : String) : Option String :=
  if key = "faq" then
    some "You are a helpful assistant that creates FAQ documents based on provided source material.\nCreate a well-structured FAQ with clear questions and concise answers.\nFormat each Q&A pair clearly with \"Q:\" and \"A:\" prefixes.\nIMPORTANT: Only use information from the provided context. Do not invent or assume any facts."
  else if key = "summary" then
    some "You are a helpful assistant that creates concise summaries of documents.\nCreate a clear, well-organized summary that captures the key points.\nUse bullet points or numbered lists where appropriate.\nIMPORTANT: Only use information from the provided context. Do not invent or assume any facts."
  else if key = "blog" then
    some "You are a helpful assistant that creates engaging blog posts based on provided source material.\nWrite in a professional yet approachable tone.\nInclude an introduction, main points, and conclusion.\nIMPORTANT: Only use information from the provided context. Do not invent or assume any facts."
  else if key = "report" then
    some "You are a helpful assistant that creates formal reports based on provided source material.\nStructure the report with clear sections and professional language.\nInclude relevant details and maintain a formal tone.\nIMPORTANT: Only use information from the provided context. Do not invent or assume any facts."
  else if key = "general" then some GENERAL_PROMPT
  else none

/-- The fixed refusal content returned when retrieval produced no hits
(`llm_service.py` line 139). -/
def NO_SOURCES_CONTENT : String :=
  "I cannot generate this content because no relevant source documents were found in the knowledge base. Please ensure relevant documents have been uploaded, or try rephrasing your query."

/-- The warning attached to the no-sources response (line 137). -/
def NO_SOURCES_WARNING : String :=
  "No relevant source documents found. Cannot generate grounded content."

/-- The user prompt assembled at lines 161-172. -/
def userPromptFor (query context : String) : String :=
  "Based on the following source documents, " ++ query
    ++ "\n\nSOURCE DOCUMENTS:\n" ++ context
    ++ "\n\nINSTRUCTIONS:\n1. Only use information from the source documents above\n2. If the sources don\x27t contain enough information, acknowledge this limitation\n3. Do not make up or assume any facts not present in the sources\n4. Structure your response appropriately for the requested content type\n\nPlease generate the requested content:"

/-- The response record assembled by `LLMService.generate`
(`generated_content`, `sources`, `warning`; the wall-clock
`db_search_time` measurement is not modelled). -/
structure GenerateResponse where
  generated_content : String
  sources : List SourceDocument
  warning : Option String
deriving DecidableEq

/-- `LLMService.generate` from the point where retrieval has produced
`hits`: the no-sources short-circuit, the low-relevance warning on the mean
score, context assembly, prompt selection (`request.generation_type or
"general"`, unknown keys falling back to the general prompt), the external
completion call `complete`, and source attribution.  The second component
collects every `(system_prompt, user_prompt)` pair sent to the external
completion model. -/
def generate (complete : String → String → String) (fmt : ℚ → String)
    (round4 : ℚ → ℚ) (query : String) (generation_type : Option String)
    (hits : List Hit) : GenerateResponse × List (String × String) :=
  if hits = [] then
    ({ generated_content := NO_SOURCES_CONTENT
       sources := []
       warning := some NO_SOURCES_WARNING }, [])
  else
    let avg_score : ℚ := ((hits.map (fun c => c.score)).sum) / hits.length
    let warning : Option String :=
      if avg_score < 2/5 then
        some ("Source documents have low relevance (avg: " ++ fmt avg_score
          ++ "). Generated content may not fully address your query.")
      else none
    let context := buildContext hits
    let gtype :=
      match generation_type with
      | none => "general"
      | some g => if g = "" then "general" else g
    let system_prompt := (GENERATION_PROMPTS gtype).getD GENERAL_PROMPT
    let user_prompt := userPromptFor query context
    let generated_content := complete system_prompt user_prompt
    ({ generated_content := generated_content
       sources := createSourceDocuments fmt round4 hits
       warning := warning }, [(system_prompt, user_prompt)])

/-! ## Retrieval filter construction (`vector_store.py`) -/

/-- A `qdrant_client` field condition as built by `VectorStoreService.search`:
`MatchAny` on `document_id` or `MatchText` on `filename`. -/
inductive FieldCond
  | matchAnyDoc (ids : List String)
  | matchTextFilename (pat : String)

/-- An entry of the outer `must` list: either a field condition directly, or
the nested `models.Filter(should=filename_conditions)` built for filename
patterns (the only nesting the source ever constructs). -/
inductive QCondition
  | field (fc : FieldCond)
  | shouldOf (cs : List FieldCond)

/-- The `query_filter` constructed at `vector_store.py` lines 145-173, a
`must` conjunction; `none` when no condition was added.  Python truthiness:
an empty list behaves exactly like `None` in `if document_ids:` /
`if filenames:`. -/
def buildQueryFilter (document_ids : Option (List String))
    (filenames : Option (List String)) : Option (List QCondition) :=
  let conds1 : List QCondition :=
    if ¬(document_ids.getD []).isEmpty then
      [QCondition.field (FieldCond.matchAnyDoc (document_ids.getD []))]
    else []
  let conds2 : List QCondition :=
    if ¬(filenames.getD []).isEmpty then
      conds1 ++ [QCondition.shouldOf ((filenames.getD []).map FieldCond.matchTextFilename)]
    else conds1
  if conds2.isEmpty then none else some conds2

/-- Modelled from the spec: evaluation of one field condition by the external
vector index (the `qdrant_client` collaborator, not part of this
repository) — `MatchAny` is membership of the hit's `document_id`,
`MatchText` the index's partial filename match, abstracted as
`textMatch pattern filename`. -/
def evalFieldCond (textMatch : String → String → Bool) (h : Hit) :
    FieldCond → Bool
  | .matchAnyDoc ids => ids.contains h.document_id
  | .matchTextFilename pat => textMatch pat h.filename

/-- Modelled from the spec: evaluation of a `must` entry — a nested `should`
filter is a disjunction of its conditions. -/
def evalQCondition (textMatch : String → String → Bool) (h : Hit) :
    QCondition → Bool
  | .field fc => evalFieldCond textMatch h fc
  | .shouldOf cs => cs.any (evalFieldCond textMatch h)

/-- Whether a stored point passes the filter `search` builds for the given
optional constraints: `must` is a conjunction, and no filter at all matches
everything. -/
def hitMatches (textMatch : String → String → Bool)
    (document_ids filenames : Option (List String)) (h : Hit) : Bool :=
  match buildQueryFilter document_ids filenames with
  | none => true
  | some must => must.all (evalQCondition textMatch h)

/-! ## Chunk storage (`vector_store.py` `add_chunks`) -/

/-- A point as upserted by `VectorStoreService.add_chunks`; `id` comes from
the external `uuid.uuid4()` generator, abstracted as `idGen` indexed by
position. -/
structure StoredPoint where
  id : String
  vector : List ℚ
  document_id : String
  filename : String
  chunk_index : Nat
  total_chunks : Nat
  chunk_text : String
  uploaded_at : String

/-- The `points` list built at `vector_store.py` lines 98-114. -/
def addChunksPoints (idGen : Nat → String) (document_id filename : String)
    (chunks : List String) (embeddings : List (List ℚ))
    (uploaded_at : String) : List StoredPoint :=
  (chunks.zip embeddings).enum.map (fun p =>
    { id := idGen p.1
      vector := p.2.2
      document_id := document_id
      filename := filename
      chunk_index := p.1
      total_chunks := chunks.length
      chunk_text := p.2.1
      uploaded_at := uploaded_at })

/-- `VectorStoreService.add_chunks`: raise `ValueError` on length mismatch
before building or upserting anything; otherwise upsert the points and
return their number. -/
def addChunks (idGen : Nat → String) (document_id filename : String)
    (chunks : List String) (embeddings : List (List ℚ))
    (uploaded_at : String) : Except String (List StoredPoint × Nat) :=
  if ¬chunks.length = embeddings.length then
    .error "Number of chunks must match number of embeddings"
  else
    let points := addChunksPoints idGen document_id filename chunks embeddings uploaded_at
    .ok (points, points.length)

/-! ## Batched embedding (`embedding_service.py`) -/

/-- `t.replace("\n", " ").strip()` — the cleaning applied to each batch
input (line 51). -/
def cleanText (t : String) : String :=
  String.mk (strip (t.data.map (fun c => if c = '\n' then ' ' else c)))

/-- `[i for i, t in enumerate(cleaned_texts) if t]` (line 54). -/
def nonEmptyIndices (cleaned : List String) : List Nat :=
  (List.range cleaned.length).filter (fun i => ¬cleaned.getD i "" = "")

/-- `EmbeddingService.get_embeddings_batch`: clean every text, keep the
indices of the non-empty ones, raise `ValueError` when none remains, send
the non-empty texts to the external embedding API `api` (one vector per
input), and scatter the returned vectors back to their original positions,
leaving `none` at the positions of empty inputs. -/
def getEmbeddingsBatch (api : List String → List (List ℚ))
    (texts : List String) : Except String (List (Option (List ℚ))) :=
  let cleaned := texts.map cleanText
  let idxs := nonEmptyIndices cleaned
  let nonEmptyTexts := idxs.map (fun i => cleaned.getD i "")
  if nonEmptyTexts = [] then .error "All texts are empty"
  else
    let data := api nonEmptyTexts
    .ok ((idxs.zip data).foldl (fun acc p => acc.set p.1 (some p.2))
      (List.replicate texts.length none))

/-- The rank of position `i` among the non-empty cleaned inputs: how many
earlier inputs survived cleaning. -/
def neRank (cleaned : List String) (i : Nat) : Nat :=
  ((List.range i).filter (fun j => ¬cleaned.getD j "" = "")).length

/-! ## Claim statements under test

Each `*Asserted` proposition below transcribes a spec claim literally, to
be compared against the behaviour of the definitions above. -/

/-- Claim C2 as stated: with `overlap < chunk_size`, every chunk's token
count is at most `chunk_size`, except a chunk consisting of a single
whitespace-delimited word whose own token count exceeds `chunk_size`. -/
def c2Asserted : Prop :=
  ∀ (tok : Str → Nat) (chunk_size overlap : Nat), overlap < chunk_size →
    ∀ (sentences : List Str) (chunk : Str),
      chunk ∈ chunkJoined tok chunk_size overlap sentences →
        tok chunk ≤ chunk_size
          ∨ ((pyWords chunk).length = 1 ∧ chunk_size < tok chunk)

/-- Claim C6 as stated: whenever the punctuation scan produces zero
sentences, the segmenter splits the input text on newline boundaries into
one sentence per non-blank line (stripped, blank lines discarded), and only
if that yields nothing does it return the whole text as a single
sentence. -/
def c6Asserted : Prop :=
  ∀ text : Str, scanSentences (normalizeWs text) = [] →
    splitIntoSentences text =
      (let lines := ((pySplitLines text).map strip).filter (fun s => ¬s = [])
       if ¬lines = [] then lines else [text])

/-- Claim C7 as stated: a hit matches exactly when (the document-ID filter
is absent or its `document_id` is listed) and (the filename filter is
absent or its `filename` partially matches some pattern). -/
def c7Asserted : Prop :=
  ∀ (textMatch : String → String → Bool)
    (document_ids filenames : Option (List String)) (h : Hit),
    hitMatches textMatch document_ids filenames h = true ↔
      ((document_ids = none ∨ h.document_id ∈ document_ids.getD [])
        ∧ (filenames = none
            ∨ ∃ p ∈ filenames.getD [], textMatch p h.filename = true))

/-- Claim C8 as stated: for every list of input texts the batch embedding
returns (for any provider answering one vector per input) a list of the
same length, with `none` exactly at the cleaned-empty positions. -/
def c8Asserted : Prop :=
  ∀ (api : List String → List (List ℚ)) (texts : List String),
    (∀ l, (api l).length = l.length) →
      ∃ es, getEmbeddingsBatch api texts = .ok es
        ∧ es.length = texts.length
        ∧ ∀ i : Nat, i < texts.length →
            (es.getD i none = none ↔ cleanText (texts.getD i "") = "")

/-- Coverage of a sentence `s` by the chunker loop state: `s` is a part of
an emitted chunk, or its word sequence sits contiguously in the flattened
emitted parts (long-sentence path), or `s` is still in the accumulating
chunk. -/
def CoveredIn (chunks : List (List Str)) (current : List Str) (s : Str) : Prop :=
  (∃ c ∈ chunks, s ∈ c) ∨ pyWords s <:+: chunks.flatten ∨ s ∈ current

/-- The budget every emitted chunk actually respects: a sentence-based chunk
stays within `chunk_size + overlap` (overlap seeding can push a chunk past
`chunk_size` alone), a word-based chunk keeps its padded word counts within
`chunk_size`, or it is a single word that alone overflows the budget. -/
def WithinBudget (tok : Str → Nat) (chunk_size overlap : Nat)
    (c : List Str) : Prop :=
  sumTok tok c ≤ chunk_size + overlap
    ∨ sumPad tok c ≤ chunk_size
    ∨ ∃ w, c = [w] ∧ chunk_size < tok (w ++ [' '])

/-! ## Theorems -/

/-- C1 -/
theorem c1_no_sources_short_circuit (complete : String → String → String)
    (fmt : ℚ → String) (round4 : ℚ → ℚ) (query : String)
    (generation_type : Option String) :
    generate complete fmt round4 query generation_type [] =
      ({ generated_content := NO_SOURCES_CONTENT
         sources := []
         warning := some NO_SOURCES_WARNING }, []) := rfl

/-- C5 -/
theorem c5_relevance_buckets :
    (∀ (fmt : ℚ → String) (round4 : ℚ → ℚ) (chunks : List Hit),
      (createSourceDocuments fmt round4 chunks).map (fun d => d.reason)
        = chunks.map (fun h => bucketReason (scoreBucket h.score) (fmt h.score)))
    ∧ (∀ s : ℚ,
        (scoreBucket s = .veryHigh ↔ 4/5 ≤ s)
        ∧ (scoreBucket s = .high ↔ 3/5 ≤ s ∧ s < 4/5)
        ∧ (scoreBucket s = .moderate ↔ 2/5 ≤ s ∧ s < 3/5)
        ∧ (scoreBucket s = .low ↔ s < 2/5))
    ∧ scoreBucket (4/5) = .veryHigh ∧ scoreBucket (3/5) = .high
    ∧ scoreBucket (2/5) = .moderate ∧ scoreBucket (39999/100000) = .low := by
  refine ⟨?_, ?_, ?_, ?_, ?_, ?_⟩
  · intro fmt round4 chunks
    simp only [createSourceDocuments, List.map_map]
    refine List.map_congr_left ?_
    intro h _
    simp only [Function.comp, scoreBucket, bucketReason]
    split_ifs <;> rfl
  · intro s
    unfold scoreBucket
    split_ifs with h1 h2 h3 <;> refine ⟨?_, ?_, ?_, ?_⟩ <;> simp_all <;>
      (try intros) <;> linarith
  · norm_num [scoreBucket]
  · norm_num [scoreBucket]
  · norm_num [scoreBucket]
  · norm_num [scoreBucket]

/-- C10 -/
theorem c10_add_chunks (idGen : Nat → String)
    (document_id filename uploaded_at : String)
    (chunks : List String) (embeddings : List (List ℚ)) :
    (¬chunks.length = embeddings.length →
      addChunks idGen document_id filename chunks embeddings uploaded_at
        = .error "Number of chunks must match number of embeddings")
    ∧ (chunks.length = embeddings.length →
      addChunks idGen document_id filename chunks embeddings uploaded_at
        = .ok (addChunksPoints idGen document_id filename chunks embeddings uploaded_at,
            chunks.length)
      ∧ (addChunksPoints idGen document_id filename chunks embeddings uploaded_at).map
          (fun p => p.chunk_index) = List.range chunks.length
      ∧ (addChunksPoints idGen document_id filename chunks embeddings uploaded_at).map
          (fun p => p.chunk_text) = chunks
      ∧ ∀ p ∈ addChunksPoints idGen document_id filename chunks embeddings uploaded_at,
          p.total_chunks = chunks.length) := by
  constructor
  · intro h
    simp [addChunks, h]
  · intro h
    have hzlen : (chunks.zip embeddings).length = chunks.length := by
      simp [List.length_zip, h]
    have hplen : (addChunksPoints idGen document_id filename chunks embeddings uploaded_at).length
        = chunks.length := by
      simp [addChunksPoints, hzlen]
    refine ⟨?_, ?_, ?_, ?_⟩
    · simp [addChunks, h, hplen]
    · simp only [addChunksPoints, List.map_map]
      have : ((fun p : StoredPoint => p.chunk_index) ∘ fun p : Nat × (String × List ℚ) =>
          ({ id := idGen p.1, vector := p.2.2, document_id := document_id,
             filename := filename, chunk_index := p.1, total_chunks := chunks.length,
             chunk_text := p.2.1, uploaded_at := uploaded_at } : StoredPoint))
          = Prod.fst := rfl
      rw [this, List.enum_map_fst, hzlen]
    · simp only [addChunksPoints, List.map_map]
      have : ((fun p : StoredPoint => p.chunk_text) ∘ fun p : Nat × (String × List ℚ) =>
          ({ id := idGen p.1, vector := p.2.2, document_id := document_id,
             filename := filename, chunk_index := p.1, total_chunks := chunks.length,
             chunk_text := p.2.1, uploaded_at := uploaded_at } : StoredPoint))
          = (fun q : String × List ℚ => q.1) ∘ Prod.snd := rfl
      rw [this, ← List.map_map, List.enum_map_snd]
      exact List.map_fst_zip chunks embeddings (le_of_eq h)
    · intro p hp
      simp only [addChunksPoints, List.mem_map] at hp
      obtain ⟨q, -, rfl⟩ := hp
      rfl

/-- C7 counterexample -/
theorem c7_counterexample : ¬ c7Asserted := by
  intro hcl
  have := hcl (fun _ _ => false) (some []) none
    ⟨"d", "f", 0, 0, "t", "u", 0⟩
  simp [hitMatches, buildQueryFilter] at this

/-- C7 amended -/
theorem c7_filter_semantics (textMatch : String → String → Bool)
    (document_ids filenames : Option (List String)) (h : Hit) :
    hitMatches textMatch document_ids filenames h = true ↔
      ((document_ids.getD [] = [] ∨ h.document_id ∈ document_ids.getD [])
        ∧ (filenames.getD [] = []
            ∨ ∃ p ∈ filenames.getD [], textMatch p h.filename = true)) := by
  rcases hd : document_ids.getD [] with _ | ⟨d, ds⟩ <;>
    rcases hf : filenames.getD [] with _ | ⟨f, fs⟩ <;>
      simp [hitMatches, buildQueryFilter, hd, hf, evalQCondition, evalFieldCond,
        List.any_map, Function.comp]

/-- Witness for C10 at concrete inputs: a mismatched call errors, a matched
two-chunk call stores indices 0 and 1 with `total_chunks = 2`. -/
theorem c10_add_chunks_witness :
    (addChunks (fun _ => "id") "doc" "file.txt" ["a"] [] "ts"
      = .error "Number of chunks must match number of embeddings")
    ∧ (addChunks (fun _ => "id") "doc" "file.txt" ["a", "b"] [[1], [2]] "ts"
        = .ok (addChunksPoints (fun _ => "id") "doc" "file.txt" ["a", "b"] [[1], [2]] "ts", 2)
      ∧ (addChunksPoints (fun _ => "id") "doc" "file.txt" ["a", "b"] [[1], [2]] "ts").map
          (fun p => p.chunk_index) = List.range 2
      ∧ ∀ p ∈ addChunksPoints (fun _ => "id") "doc" "file.txt" ["a", "b"] [[1], [2]] "ts",
          p.total_chunks = 2) :=
  ⟨(c10_add_chunks (fun _ => "id") "doc" "file.txt" "ts" ["a"] []).1 (by simp),
    ((c10_add_chunks (fun _ => "id") "doc" "file.txt" "ts" ["a", "b"] [[1], [2]]).2 rfl).1,
    ((c10_add_chunks (fun _ => "id") "doc" "file.txt" "ts" ["a", "b"] [[1], [2]]).2 rfl).2.1,
    ((c10_add_chunks (fun _ => "id") "doc" "file.txt" "ts" ["a", "b"] [[1], [2]]).2 rfl).2.2.2⟩

/-- C2 counterexample: with a one-token-per-character counter,
`chunk_size = 10`, `overlap = 5` and the two sentences `"abcd"` /
`"efghijkl"` (4 and 8 tokens), the overlap-seeded second chunk
`"abcd efghijkl"` counts 13 > 10 tokens yet consists of two words. -/
theorem c2_counterexample : ¬ c2Asserted := by
  intro hcl
  have := hcl tokLen 10 5 (by decide) ["abcd".data, "efghijkl".data]
    "abcd efghijkl".data (by decide)
  revert this
  decide

/-- C6 counterexample: on the all-whitespace input `" "` the punctuation
scan produces zero sentences and the single line `" "` is blank, so the
claim predicts the whole text `" "` back as one sentence, but the
segmenter returns the empty sentence `""` (whitespace was normalised away
before the fallback ever ran). -/
theorem c6_counterexample : ¬ c6Asserted := by
  intro hcl
  have := hcl " ".data (by decide)
  revert this
  decide

theorem sumTok_append (tok : Str → Nat) (a b : List Str) :
    sumTok tok (a ++ b) = sumTok tok a + sumTok tok b := by
  simp [sumTok]

theorem sumPad_append (tok : Str → Nat) (a b : List Str) :
    sumPad tok (a ++ b) = sumPad tok a + sumPad tok b := by
  simp [sumPad]

theorem sumTok_le_sumPad (tok : Str → Nat)
    (hpad : ∀ s, tok s ≤ tok (s ++ [' '])) (c : List Str) :
    sumTok tok c ≤ sumPad tok c := by
  induction c with
  | nil => simp [sumTok, sumPad]
  | cons x xs ih =>
    simp only [sumTok, sumPad, List.map_cons, List.sum_cons] at *
    exact Nat.add_le_add (hpad x) ih

theorem owGo_spec (tok : Str → Nat) (ov : Nat) :
    ∀ (rl acc : List Str) (a : Nat), a = sumTok tok acc → a ≤ ov →
      (owGo tok ov acc a rl).2 = sumTok tok (owGo tok ov acc a rl).1
      ∧ (owGo tok ov acc a rl).2 ≤ ov
      ∧ ∃ p, p <+: rl ∧ (owGo tok ov acc a rl).1 = p.reverse ++ acc := by
  intro rl
  induction rl with
  | nil =>
    intro acc a ha hle
    exact ⟨ha, hle, [], List.nil_prefix, by simp [owGo]⟩
  | cons s rest ih =>
    intro acc a ha hle
    by_cases hfit : a + tok s ≤ ov
    · have h2 : a + tok s = sumTok tok (s :: acc) := by
        simp [sumTok, ha]; omega
      obtain ⟨e1, e2, p, hp, he⟩ := ih (s :: acc) (a + tok s) h2 hfit
      refine ⟨?_, ?_, s :: p, ?_, ?_⟩
      · simpa [owGo, hfit] using e1
      · simpa [owGo, hfit] using e2
      · exact (List.prefix_cons_inj s).mpr hp
      · simp only [owGo, if_pos hfit]
        rw [he]
        simp
    · exact ⟨by simpa [owGo, hfit] using ha, by simpa [owGo, hfit] using hle,
        [], List.nil_prefix, by simp [owGo, hfit]⟩

theorem overlapWindow_spec (tok : Str → Nat) (ov : Nat) (l : List Str) :
    (overlapWindow tok ov l).1 <:+ l
    ∧ (overlapWindow tok ov l).2 = sumTok tok (overlapWindow tok ov l).1
    ∧ (overlapWindow tok ov l).2 ≤ ov := by
  obtain ⟨e1, e2, p, hp, he⟩ :=
    owGo_spec tok ov l.reverse [] 0 (by simp [sumTok]) (Nat.zero_le ov)
  refine ⟨?_, e1, e2⟩
  obtain ⟨t, ht⟩ := hp
  refine ⟨t.reverse, ?_⟩
  have : l = t.reverse ++ p.reverse := by
    have := congrArg List.reverse ht
    simpa using this.symm
  rw [overlapWindow] at *
  rw [he]
  simp only [List.append_nil]
  exact this.symm

theorem slsGo_bound (tok : Str → Nat) (chunk_size : Nat) :
    ∀ (ws temp : List Str) (tt : Nat), tt = sumPad tok temp →
      (sumPad tok temp ≤ chunk_size
        ∨ ∃ w, temp = [w] ∧ chunk_size < tok (w ++ [' '])) →
      ∀ c ∈ slsGo tok chunk_size temp tt ws,
        sumPad tok c ≤ chunk_size
          ∨ ∃ w, c = [w] ∧ chunk_size < tok (w ++ [' ']) := by
  intro ws
  induction ws with
  | nil =>
    intro temp tt htt hgood c hc
    by_cases he : temp = [] <;> simp [slsGo, he] at hc
    subst hc; exact hgood
  | cons w rest ih =>
    intro temp tt htt hgood c hc
    simp only [slsGo] at hc
    by_cases hof : chunk_size < tt + tok (w ++ [' '])
    · rw [if_pos hof] at hc
      rcases List.mem_append.mp hc with hc1 | hc2
      · by_cases he : temp = [] <;> simp [he] at hc1
        subst hc1; exact hgood
      · refine ih [w] (tok (w ++ [' '])) (by simp [sumPad]) ?_ c hc2
        by_cases hbig : chunk_size < tok (w ++ [' '])
        · exact Or.inr ⟨w, rfl, hbig⟩
        · exact Or.inl (by simp [sumPad]; omega)
    · rw [if_neg hof] at hc
      refine ih (temp ++ [w]) (tt + tok (w ++ [' '])) (by simp [sumPad_append, sumPad, htt]) ?_ c hc
      exact Or.inl (by rw [sumPad_append] at *; simp [sumPad] at *; omega)

theorem stepSentence_inv (tok : Str → Nat) (chunk_size overlap : Nat)
    (st : ChunkState) (s : Str)
    (h1 : ∀ c ∈ st.chunks, WithinBudget tok chunk_size overlap c)
    (h2 : st.curTok = sumTok tok st.current)
    (h3 : sumTok tok st.current ≤ chunk_size + overlap) :
    (∀ c ∈ (stepSentence tok chunk_size overlap st s).chunks,
        WithinBudget tok chunk_size overlap c)
    ∧ (stepSentence tok chunk_size overlap st s).curTok
        = sumTok tok (stepSentence tok chunk_size overlap st s).current
    ∧ sumTok tok (stepSentence tok chunk_size overlap st s).current
        ≤ chunk_size + overlap := by
  have hflush : ∀ c ∈ (if st.current = [] then st.chunks else st.chunks ++ [st.current]),
      WithinBudget tok chunk_size overlap c := by
    by_cases he : st.current = []
    · simpa [he] using h1
    · intro c hc
      rw [if_neg he] at hc
      rcases List.mem_append.mp hc with h | h
      · exact h1 c h
      · simp at h; subst h; exact Or.inl h3
  by_cases hlong : chunk_size < tok s
  · refine ⟨?_, by simp [stepSentence, hlong, sumTok], by simp [stepSentence, hlong, sumTok]⟩
    intro c hc
    simp only [stepSentence, if_pos hlong] at hc
    rcases List.mem_append.mp hc with h | h
    · exact hflush c h
    · rcases slsGo_bound tok chunk_size (pyWords s) [] 0 (by simp [sumPad])
        (Or.inl (by simp [sumPad])) c h with hb | hb
      · exact Or.inr (Or.inl hb)
      · exact Or.inr (Or.inr hb)
  · by_cases hover : chunk_size < st.curTok + tok s
    · by_cases hseed : 0 < overlap ∧ ¬st.current = []
      · obtain ⟨hsfx, hsum, hle⟩ := overlapWindow_spec tok overlap st.current
        refine ⟨?_, ?_, ?_⟩
        · intro c hc
          simp only [stepSentence, if_neg hlong, if_pos hover, if_pos hseed] at hc
          exact hflush c hc
        · simp only [stepSentence, if_neg hlong, if_pos hover, if_pos hseed]
          rw [sumTok_append, hsum]
          simp [sumTok]
        · simp only [stepSentence, if_neg hlong, if_pos hover, if_pos hseed]
          rw [sumTok_append]
          have : sumTok tok [s] = tok s := by simp [sumTok]
          rw [this]
          omega
      · refine ⟨?_, ?_, ?_⟩
        · intro c hc
          simp only [stepSentence, if_neg hlong, if_pos hover, if_neg hseed] at hc
          exact hflush c hc
        · simp [stepSentence, if_neg hlong, if_pos hover, if_neg hseed, sumTok]
        · simp only [stepSentence, if_neg hlong, if_pos hover, if_neg hseed]
          have : sumTok tok [s] = tok s := by simp [sumTok]
          rw [this]
          omega
    · refine ⟨?_, ?_, ?_⟩
      · intro c hc
        simp only [stepSentence, if_neg hlong, if_neg hover] at hc
        exact h1 c hc
      · simp only [stepSentence, if_neg hlong, if_neg hover]
        simp [sumTok_append, sumTok, h2]
      · simp only [stepSentence, if_neg hlong, if_neg hover]
        rw [sumTok_append]
        have hs : sumTok tok [s] = tok s := by simp [sumTok]
        rw [hs]
        omega

theorem chunkLoop_inv (tok : Str → Nat) (chunk_size overlap : Nat) :
    ∀ (ss : List Str) (st : ChunkState),
      (∀ c ∈ st.chunks, WithinBudget tok chunk_size overlap c) →
      st.curTok = sumTok tok st.current →
      sumTok tok st.current ≤ chunk_size + overlap →
      (∀ c ∈ (ss.foldl (stepSentence tok chunk_size overlap) st).chunks,
          WithinBudget tok chunk_size overlap c)
      ∧ sumTok tok (ss.foldl (stepSentence tok chunk_size overlap) st).current
          ≤ chunk_size + overlap := by
  intro ss
  induction ss with
  | nil => intro st h1 h2 h3; exact ⟨h1, h3⟩
  | cons s rest ih =>
    intro st h1 h2 h3
    obtain ⟨g1, g2, g3⟩ := stepSentence_inv tok chunk_size overlap st s h1 h2 h3
    simpa using ih (stepSentence tok chunk_size overlap st s) g1 g2 g3

/-- C2 amended: every chunk the chunker emits keeps the sum of its parts'
token counts within `chunk_size + overlap` (overlap seeding may exceed
`chunk_size` alone), unless it is a single word whose padded token count
already exceeds `chunk_size`. -/
theorem c2_chunk_token_bound (tok : Str → Nat) (chunk_size overlap : Nat)
    (hpad : ∀ s, tok s ≤ tok (s ++ [' ']))
    (sentences : List Str) (c : List Str)
    (hc : c ∈ chunkSentences tok chunk_size overlap sentences) :
    sumTok tok c ≤ chunk_size + overlap
      ∨ ∃ w, c = [w] ∧ chunk_size < tok (w ++ [' ']) := by
  obtain ⟨g1, g2⟩ := chunkLoop_inv tok chunk_size overlap sentences ⟨[], [], 0⟩
    (by simp) (by simp [sumTok]) (by simp [sumTok])
  have hwb : WithinBudget tok chunk_size overlap c := by
    set final := sentences.foldl (stepSentence tok chunk_size overlap) ⟨[], [], 0⟩ with hf
    rw [chunkSentences, ← hf] at hc
    by_cases he : final.current = []
    · rw [if_pos he] at hc
      exact g1 c hc
    · rw [if_neg he] at hc
      rcases List.mem_append.mp hc with h | h
      · exact g1 c h
      · simp at h; subst h; exact Or.inl g2
  rcases hwb with h | h | h
  · exact Or.inl h
  · exact Or.inl (le_trans (le_trans (sumTok_le_sumPad tok hpad c) h) (Nat.le_add_right _ _))
  · exact Or.inr h

/-- Witness for C2's amended bound: the overlap-seeded chunk
`["abcd", "efghijkl"]` from the counterexample instance indeed stays within
`chunk_size + overlap = 15` token-sum. -/
theorem c2_chunk_token_bound_witness :
    sumTok tokLen ["abcd".data, "efghijkl".data] ≤ 10 + 5
      ∨ ∃ w, ["abcd".data, "efghijkl".data] = [w] ∧ 10 < tokLen (w ++ [' ']) :=
  c2_chunk_token_bound tokLen 10 5 (fun s => by simp [tokLen])
    ["abcd".data, "efghijkl".data] ["abcd".data, "efghijkl".data] (by decide)

/-- C4: when a sentence triggers the overflow path with positive overlap and
a non-empty accumulating chunk, the flushed chunk becomes chunk A, and the
new chunk starts with a seed that is a contiguous suffix of A whose token
counts sum to at most `overlap`, followed by the triggering sentence. -/
theorem c4_overlap_seed (tok : Str → Nat) (chunk_size overlap : Nat)
    (st : ChunkState) (s : Str)
    (hs : ¬chunk_size < tok s)
    (hover : chunk_size < st.curTok + tok s)
    (hov : 0 < overlap)
    (hcur : ¬st.current = []) :
    (stepSentence tok chunk_size overlap st s).chunks = st.chunks ++ [st.current]
    ∧ ∃ seed, (stepSentence tok chunk_size overlap st s).current = seed ++ [s]
        ∧ seed <:+ st.current ∧ sumTok tok seed ≤ overlap := by
  obtain ⟨hsfx, hsum, hle⟩ := overlapWindow_spec tok overlap st.current
  refine ⟨?_, (overlapWindow tok overlap st.current).1, ?_, hsfx, ?_⟩
  · simp [stepSentence, hs, hover, hov, hcur]
  · simp [stepSentence, hs, hover, hov, hcur]
  · rw [← hsum]; exact hle

/-- Witness for C4: sentences of 4 and 8 length-tokens with
`chunk_size = 10`, `overlap = 5`: the seed `["abcd"]` is a suffix of the
flushed chunk and weighs 4 ≤ 5. -/
theorem c4_overlap_seed_witness :
    (stepSentence tokLen 10 5 ⟨[], ["abcd".data], 4⟩ "efghijkl".data).chunks
        = [] ++ [["abcd".data]]
    ∧ ∃ seed, (stepSentence tokLen 10 5 ⟨[], ["abcd".data], 4⟩ "efghijkl".data).current
        = seed ++ ["efghijkl".data]
      ∧ seed <:+ ["abcd".data] ∧ sumTok tokLen seed ≤ 5 :=
  c4_overlap_seed tokLen 10 5 ⟨[], ["abcd".data], 4⟩ "efghijkl".data
    (by decide) (by decide) (by decide) (by decide)

theorem pyWordsGo_all_ws : ∀ t : Str, (∀ c ∈ t, isWs c = true) →
    pyWordsGo [] t = [] := by
  intro t
  induction t with
  | nil => intro _; rfl
  | cons c rest ih =>
    intro h
    have hc : isWs c = true := h c (by simp)
    simp only [pyWordsGo, hc, if_true]
    simpa using ih (fun d hd => h d (by simp [hd]))

theorem pyWordsGo_ne_nil_of_cur : ∀ (t cur : Str), ¬cur = [] →
    ¬pyWordsGo cur t = [] := by
  intro t
  induction t with
  | nil => intro cur h; simp [pyWordsGo, h]
  | cons c rest ih =>
    intro cur h
    by_cases hc : isWs c
    · simp [pyWordsGo, hc, h]
    · simp only [pyWordsGo, hc, if_false]
      exact ih (cur ++ [c]) (by simp)

theorem pyWordsGo_ne_nil : ∀ (t : Str), (∃ c ∈ t, isWs c = false) →
    ∀ cur : Str, ¬pyWordsGo cur t = [] := by
  intro t
  induction t with
  | nil => rintro ⟨c, hc, -⟩; simp at hc
  | cons d rest ih =>
    rintro ⟨c, hc, hcw⟩ cur
    by_cases hd : isWs d
    · have hcr : c ∈ rest := by
        rcases List.mem_cons.mp hc with rfl | h
        · rw [hd] at hcw; cases hcw
        · exact h
      by_cases hcur : cur = []
      · simpa [pyWordsGo, hd, hcur] using ih ⟨c, hcr, hcw⟩ []
      · simp [pyWordsGo, hd, hcur]
    · simp only [pyWordsGo, hd, if_false]
      exact pyWordsGo_ne_nil_of_cur rest (cur ++ [d]) (by simp)

theorem pyWordsGo_mem : ∀ (t cur : Str), (∀ c ∈ cur, isWs c = false) →
    ∀ w ∈ pyWordsGo cur t, ¬w = [] ∧ ∀ c ∈ w, isWs c = false := by
  intro t
  induction t with
  | nil =>
    intro cur hcur w hw
    by_cases h : cur = [] <;> simp [pyWordsGo, h] at hw
    subst hw; exact ⟨h, hcur⟩
  | cons c rest ih =>
    intro cur hcur w hw
    by_cases hc : isWs c
    · by_cases h : cur = []
      · rw [pyWordsGo, if_pos hc, if_pos h] at hw
        exact ih [] (by simp) w hw
      · rw [pyWordsGo, if_pos hc, if_neg h] at hw
        rcases List.mem_cons.mp hw with rfl | hw2
        · exact ⟨h, hcur⟩
        · exact ih [] (by simp) w hw2
    · rw [pyWordsGo, if_neg hc] at hw
      refine ih (cur ++ [c]) ?_ w hw
      intro d hd
      rcases List.mem_append.mp hd with h | h
      · exact hcur d h
      · simp at h; subst h; simpa using hc

theorem mem_dropWhile_of_not_ws : ∀ (l : Str) (c : Char), c ∈ l →
    isWs c = false → c ∈ l.dropWhile isWs := by
  intro l
  induction l with
  | nil => intro c hc; cases hc
  | cons a t ih =>
    intro c hc hcw
    by_cases ha : isWs a
    · have hct : c ∈ t := by
        rcases List.mem_cons.mp hc with rfl | h
        · rw [ha] at hcw; cases hcw
        · exact h
      simpa [List.dropWhile_cons, ha] using ih c hct hcw
    · simpa [List.dropWhile_cons, ha] using hc

theorem mem_strip (l : Str) (c : Char) (hc : c ∈ l) (hcw : isWs c = false) :
    c ∈ strip l := by
  rw [strip]
  rw [List.mem_reverse]
  refine mem_dropWhile_of_not_ws _ c ?_ hcw
  rw [List.mem_reverse]
  exact mem_dropWhile_of_not_ws l c hc hcw

theorem dropWhile_head_content : ∀ l : Str, ¬l.dropWhile isWs = [] →
    ∃ c ∈ l.dropWhile isWs, isWs c = false := by
  intro l
  induction l with
  | nil => intro h; simp at h
  | cons a t ih =>
    intro h
    by_cases ha : isWs a
    · rw [List.dropWhile_cons, if_pos ha] at h ⊢
      exact ih h
    · rw [List.dropWhile_cons, if_neg ha]
      exact ⟨a, by simp, by simpa using ha⟩

theorem strip_content (l : Str) (h : ¬strip l = []) :
    ∃ c ∈ strip l, isWs c = false := by
  rw [strip] at h ⊢
  have h2 : ¬((l.dropWhile isWs).reverse.dropWhile isWs) = [] := by
    intro he; rw [he] at h; simp at h
  obtain ⟨c, hc, hcw⟩ := dropWhile_head_content _ h2
  exact ⟨c, by simpa using hc, hcw⟩

theorem intercalate_cons_head (sep : Str) (w : Str) (ws : List Str) :
    ∃ r, List.intercalate sep (w :: ws) = w ++ r := by
  cases ws with
  | nil => exact ⟨[], by simp [List.intercalate]⟩
  | cons x t =>
    exact ⟨sep ++ List.intercalate sep (x :: t),
      by simp [List.intercalate, List.intersperse_cons_cons]⟩

theorem normalizeWs_content (text : Str) (hne : ∃ c ∈ text, isWs c = false) :
    ∃ c ∈ normalizeWs text, isWs c = false := by
  rcases hw : pyWords text with _ | ⟨w, ws⟩
  · exact absurd hw (pyWordsGo_ne_nil text hne [])
  · obtain ⟨hwne, hwc⟩ := pyWordsGo_mem text [] (by simp) w (by rw [pyWords] at hw; rw [hw]; simp)
    obtain ⟨c, hc⟩ := List.exists_mem_of_ne_nil w hwne
    obtain ⟨r, hr⟩ := intercalate_cons_head [' '] w ws
    refine ⟨c, ?_, hwc c hc⟩
    rw [normalizeWs, hw, hr]
    exact List.mem_append_left r hc

/-- C9: on whitespace-only input (including the empty string) the segmenter
returns the single empty sentence and the chunker the single empty chunk
(an empty string tokenises to zero tokens). -/
theorem c9_whitespace_only (tok : Str → Nat) (chunk_size overlap : Nat)
    (text : Str) (hws : ∀ c ∈ text, isWs c = true) (htok : tok [] = 0) :
    splitIntoSentences text = [[]]
      ∧ chunkText tok chunk_size overlap text = [[]] := by
  have hnorm : normalizeWs text = [] := by
    rw [normalizeWs, pyWords, pyWordsGo_all_ws text hws]
    rfl
  have hsent : splitIntoSentences text = [[]] := by
    rw [splitIntoSentences, hnorm]
    rfl
  refine ⟨hsent, ?_⟩
  rw [chunkText, hsent, chunkJoined, chunkSentences]
  simp only [List.foldl_cons, List.foldl_nil, stepSentence, htok]
  simp [List.intercalate]

/-- Witness for C9 at the concrete input `" \n "` with the length
tokenizer. -/
theorem c9_whitespace_only_witness :
    splitIntoSentences " \n ".data = [[]]
      ∧ chunkText tokLen 500 50 " \n ".data = [[]] :=
  c9_whitespace_only tokLen 500 50 " \n ".data (by decide) rfl

theorem scanFold_acc : ∀ (t : Str) (acc : List Str) (cur : Str),
    ∃ tail, (List.foldl scanStep (acc, cur) t).1 = acc ++ tail := by
  intro t
  induction t with
  | nil => intro acc cur; exact ⟨[], by simp⟩
  | cons c rest ih =>
    intro acc cur
    by_cases h1 : (c = '.' ∨ c = '!' ∨ c = '?') ∧ 0 < (strip (cur ++ [c])).length
    · by_cases h2 : 2 < (strip (cur ++ [c])).length
      · obtain ⟨tail, ht⟩ := ih (acc ++ [strip (cur ++ [c])]) []
        refine ⟨[strip (cur ++ [c])] ++ tail, ?_⟩
        simp only [List.foldl_cons, scanStep, if_pos h1, if_pos h2]
        rw [ht]
        simp
      · obtain ⟨tail, ht⟩ := ih acc (cur ++ [c])
        refine ⟨tail, ?_⟩
        simpa [List.foldl_cons, scanStep, if_pos h1, if_neg h2] using ht
    · obtain ⟨tail, ht⟩ := ih acc (cur ++ [c])
      refine ⟨tail, ?_⟩
      simpa [List.foldl_cons, scanStep, if_neg h1] using ht

theorem scanFold_noemit : ∀ (t : Str) (acc : List Str) (cur : Str),
    (List.foldl scanStep (acc, cur) t).1 = acc →
    (List.foldl scanStep (acc, cur) t).2 = cur ++ t := by
  intro t
  induction t with
  | nil => intro acc cur _; simp
  | cons c rest ih =>
    intro acc cur hacc
    by_cases h1 : (c = '.' ∨ c = '!' ∨ c = '?') ∧ 0 < (strip (cur ++ [c])).length
    · by_cases h2 : 2 < (strip (cur ++ [c])).length
      · exfalso
        obtain ⟨tail, ht⟩ := scanFold_acc rest (acc ++ [strip (cur ++ [c])]) []
        rw [List.foldl_cons, scanStep] at hacc
        simp only [if_pos h1, if_pos h2] at hacc
        rw [ht] at hacc
        have := congrArg List.length hacc
        simp at this
      · rw [List.foldl_cons, scanStep] at hacc ⊢
        simp only [if_pos h1, if_neg h2] at hacc ⊢
        rw [ih acc (cur ++ [c]) hacc]
        simp
    · rw [List.foldl_cons, scanStep] at hacc ⊢
      simp only [if_neg h1] at hacc ⊢
      rw [ih acc (cur ++ [c]) hacc]
      simp

theorem scanSentences_nil_strip (t : Str) (h : scanSentences t = []) :
    strip t = [] := by
  rw [scanSentences] at h
  rcases List.append_eq_nil.mp h with ⟨h1, h2⟩
  have hbuf : (List.foldl scanStep ([], []) t).2 = t := by
    simpa using scanFold_noemit t [] [] h1
  by_cases hs : strip (List.foldl scanStep ([], []) t).2 = []
  · rwa [hbuf] at hs
  · rw [if_neg hs] at h2; cases h2

/-- C6 amended: whitespace is normalised (newlines collapsed) before the
scan, so the scan yields zero sentences exactly on effectively-empty input;
the newline fallback then finds no non-blank line and the segmenter returns
the single empty sentence — never one sentence per original line. -/
theorem c6_fallback_degenerate (text : Str)
    (hscan : scanSentences (normalizeWs text) = []) :
    splitIntoSentences text = [[]] ∧ normalizeWs text = [] := by
  have hnorm : normalizeWs text = [] := by
    by_contra hne
    rcases hw : pyWords text with _ | ⟨w, ws⟩
    · exact hne (by rw [normalizeWs, hw]; rfl)
    · obtain ⟨hwne, hwc⟩ := pyWordsGo_mem text [] (by simp) w
        (by rw [pyWords] at hw; rw [hw]; simp)
      obtain ⟨c, hc⟩ := List.exists_mem_of_ne_nil w hwne
      obtain ⟨r, hr⟩ := intercalate_cons_head [' '] w ws
      have hmem : c ∈ normalizeWs text := by
        rw [normalizeWs, hw, hr]
        exact List.mem_append_left r hc
      have := mem_strip (normalizeWs text) c hmem (hwc c hc)
      rw [scanSentences_nil_strip _ hscan] at this
      cases this
  refine ⟨?_, hnorm⟩
  rw [splitIntoSentences, hnorm]
  rfl

/-- Witness for the amended C6 at the concrete whitespace-only input
`" \t"`. -/
theorem c6_fallback_degenerate_witness :
    splitIntoSentences " \t".data = [[]] ∧ normalizeWs " \t".data = [] :=
  c6_fallback_degenerate " \t".data (by decide)

theorem isInfix_append_right {l m n : List Str} (h : l <:+: m) :
    l <:+: m ++ n := by
  obtain ⟨s, t, hst⟩ := h
  exact ⟨s, t ++ n, by rw [← hst]; simp⟩

theorem isInfix_append_left {l m n : List Str} (h : l <:+: m) :
    l <:+: n ++ m := by
  obtain ⟨s, t, hst⟩ := h
  exact ⟨n ++ s, t, by rw [← hst]; simp⟩

theorem slsGo_flatten (tok : Str → Nat) (chunk_size : Nat) :
    ∀ (ws temp : List Str) (tt : Nat),
      (slsGo tok chunk_size temp tt ws).flatten = temp ++ ws := by
  intro ws
  induction ws with
  | nil =>
    intro temp tt
    by_cases h : temp = [] <;> simp [slsGo, h]
  | cons w rest ih =>
    intro temp tt
    by_cases hof : chunk_size < tt + tok (w ++ [' '])
    · by_cases h : temp = [] <;>
        simp [slsGo, hof, h, ih [w]]
    · simp [slsGo, hof, ih (temp ++ [w])]

theorem intercalate_cons_cons_eq (sep y z : Str) (zs : List Str) :
    List.intercalate sep (y :: z :: zs) = y ++ sep ++ List.intercalate sep (z :: zs) := by
  simp [List.intercalate, List.intersperse_cons_cons]

theorem mem_intercalate_of_mem (sep : Str) :
    ∀ (c : List Str) (x : Str), x ∈ c → ∀ a ∈ x, a ∈ List.intercalate sep c := by
  intro c
  induction c with
  | nil => intro x hx; cases hx
  | cons y ys ih =>
    intro x hx a ha
    rcases List.mem_cons.mp hx with rfl | hx2
    · obtain ⟨r, hr⟩ := intercalate_cons_head sep x ys
      rw [hr]
      exact List.mem_append_left r ha
    · cases ys with
      | nil => cases hx2
      | cons z zs =>
        rw [intercalate_cons_cons_eq]
        exact List.mem_append_right _ (ih x hx2 a ha)

theorem stepSentence_covers (tok : Str → Nat) (chunk_size overlap : Nat)
    (st : ChunkState) (x s : Str)
    (h : CoveredIn st.chunks st.current s) :
    CoveredIn (stepSentence tok chunk_size overlap st x).chunks
      (stepSentence tok chunk_size overlap st x).current s := by
  have hchunks1 : ∀ c ∈ st.chunks,
      c ∈ (if st.current = [] then st.chunks else st.chunks ++ [st.current]) := by
    by_cases he : st.current = []
    · simp [he]
    · intro c hc; simp [he]; exact Or.inl hc
  have hflat1 : ∃ z, (if st.current = [] then st.chunks else st.chunks ++ [st.current]).flatten
      = st.chunks.flatten ++ z := by
    by_cases he : st.current = []
    · exact ⟨[], by simp [he]⟩
    · exact ⟨st.current, by simp [he]⟩
  by_cases hlong : chunk_size < tok x
  · simp only [stepSentence, if_pos hlong]
    rcases h with ⟨c, hc, hsc⟩ | hinf | hcur
    · exact Or.inl ⟨c, List.mem_append_left _ (hchunks1 c hc), hsc⟩
    · obtain ⟨z, hz⟩ := hflat1
      refine Or.inr (Or.inl ?_)
      rw [List.flatten_append, hz]
      exact isInfix_append_right (isInfix_append_right hinf)
    · have he : ¬st.current = [] := List.ne_nil_of_mem hcur
      exact Or.inl ⟨st.current,
        List.mem_append_left _ (by simp [he]), hcur⟩
  · by_cases hover : chunk_size < st.curTok + tok x
    · have hmain : ∀ cur' : List Str,
          CoveredIn (if st.current = [] then st.chunks else st.chunks ++ [st.current]) cur' s := by
        intro cur'
        rcases h with ⟨c, hc, hsc⟩ | hinf | hcur
        · exact Or.inl ⟨c, hchunks1 c hc, hsc⟩
        · obtain ⟨z, hz⟩ := hflat1
          refine Or.inr (Or.inl ?_)
          rw [hz]
          exact isInfix_append_right hinf
        · have he : ¬st.current = [] := List.ne_nil_of_mem hcur
          exact Or.inl ⟨st.current, by simp [he], hcur⟩
      by_cases hseed : 0 < overlap ∧ ¬st.current = []
      · simpa only [stepSentence, if_neg hlong, if_pos hover, if_pos hseed]
          using hmain ((overlapWindow tok overlap st.current).1 ++ [x])
      · simpa only [stepSentence, if_neg hlong, if_pos hover, if_neg hseed]
          using hmain [x]
    · simp only [stepSentence, if_neg hlong, if_neg hover]
      rcases h with ⟨c, hc, hsc⟩ | hinf | hcur
      · exact Or.inl ⟨c, hc, hsc⟩
      · exact Or.inr (Or.inl hinf)
      · exact Or.inr (Or.inr (List.mem_append_left _ hcur))

theorem stepSentence_covers_new (tok : Str → Nat) (chunk_size overlap : Nat)
    (st : ChunkState) (x : Str) :
    CoveredIn (stepSentence tok chunk_size overlap st x).chunks
      (stepSentence tok chunk_size overlap st x).current x := by
  by_cases hlong : chunk_size < tok x
  · simp only [stepSentence, if_pos hlong]
    refine Or.inr (Or.inl ?_)
    rw [List.flatten_append, splitLongSentence, slsGo_flatten]
    exact ⟨(if st.current = [] then st.chunks else st.chunks ++ [st.current]).flatten,
      [], by simp⟩
  · by_cases hover : chunk_size < st.curTok + tok x
    · by_cases hseed : 0 < overlap ∧ ¬st.current = []
      · simp only [stepSentence, if_neg hlong, if_pos hover, if_pos hseed]
        exact Or.inr (Or.inr (List.mem_append_right _ (by simp)))
      · simp only [stepSentence, if_neg hlong, if_pos hover, if_neg hseed]
        exact Or.inr (Or.inr (by simp))
    · simp only [stepSentence, if_neg hlong, if_neg hover]
      exact Or.inr (Or.inr (List.mem_append_right _ (by simp)))

theorem chunkLoop_covers (tok : Str → Nat) (chunk_size overlap : Nat) :
    ∀ (ss : List Str) (st : ChunkState) (s : Str),
      CoveredIn st.chunks st.current s →
      CoveredIn (ss.foldl (stepSentence tok chunk_size overlap) st).chunks
        (ss.foldl (stepSentence tok chunk_size overlap) st).current s := by
  intro ss
  induction ss with
  | nil => intro st s h; exact h
  | cons x rest ih =>
    intro st s h
    simpa using ih (stepSentence tok chunk_size overlap st x) s
      (stepSentence_covers tok chunk_size overlap st x s h)

theorem chunkLoop_covers_mem (tok : Str → Nat) (chunk_size overlap : Nat) :
    ∀ (ss : List Str) (st : ChunkState) (s : Str), s ∈ ss →
      CoveredIn (ss.foldl (stepSentence tok chunk_size overlap) st).chunks
        (ss.foldl (stepSentence tok chunk_size overlap) st).current s := by
  intro ss
  induction ss with
  | nil => intro st s h; cases h
  | cons x rest ih =>
    intro st s h
    rcases List.mem_cons.mp h with rfl | h2
    · simpa using chunkLoop_covers tok chunk_size overlap rest _ s
        (stepSentence_covers_new tok chunk_size overlap st s)
    · simpa using ih (stepSentence tok chunk_size overlap st x) s h2

theorem chunkSentences_covers (tok : Str → Nat) (chunk_size overlap : Nat)
    (sentences : List Str) (s : Str) (hs : s ∈ sentences) :
    (∃ c ∈ chunkSentences tok chunk_size overlap sentences, s ∈ c)
      ∨ pyWords s <:+: (chunkSentences tok chunk_size overlap sentences).flatten := by
  have h := chunkLoop_covers_mem tok chunk_size overlap sentences ⟨[], [], 0⟩ s hs
  set final := sentences.foldl (stepSentence tok chunk_size overlap) ⟨[], [], 0⟩ with hf
  rw [chunkSentences, ← hf]
  rcases h with ⟨c, hc, hsc⟩ | hinf | hcur
  · refine Or.inl ⟨c, ?_, hsc⟩
    by_cases he : final.current = []
    · simpa [he] using hc
    · simp only [if_neg he]
      exact List.mem_append_left _ hc
  · refine Or.inr ?_
    by_cases he : final.current = []
    · simpa [he] using hinf
    · simp only [if_neg he]
      rw [List.flatten_append]
      exact isInfix_append_right hinf
  · have he : ¬final.current = [] := List.ne_nil_of_mem hcur
    exact Or.inl ⟨final.current, by simp [he], hcur⟩

theorem scanFold_mem : ∀ (t : Str) (acc : List Str) (cur : Str),
    (∀ s ∈ acc, (∃ u, s = strip u) ∧ ¬s = []) →
    ∀ s ∈ (List.foldl scanStep (acc, cur) t).1, (∃ u, s = strip u) ∧ ¬s = [] := by
  intro t
  induction t with
  | nil => intro acc cur h; simpa using h
  | cons c rest ih =>
    intro acc cur h s hs
    by_cases h1 : (c = '.' ∨ c = '!' ∨ c = '?') ∧ 0 < (strip (cur ++ [c])).length
    · by_cases h2 : 2 < (strip (cur ++ [c])).length
      · rw [List.foldl_cons, scanStep] at hs
        simp only [if_pos h1, if_pos h2] at hs
        refine ih (acc ++ [strip (cur ++ [c])]) [] ?_ s hs
        intro v hv
        rcases List.mem_append.mp hv with hv1 | hv2
        · exact h v hv1
        · simp at hv2
          subst hv2
          refine ⟨⟨cur ++ [c], rfl⟩, ?_⟩
          intro hnil
          rw [hnil] at h2
          simp at h2
      · rw [List.foldl_cons, scanStep] at hs
        simp only [if_pos h1, if_neg h2] at hs
        exact ih acc (cur ++ [c]) h s hs
    · rw [List.foldl_cons, scanStep] at hs
      simp only [if_neg h1] at hs
      exact ih acc (cur ++ [c]) h s hs

theorem scanSentences_mem (t : Str) (s : Str) (hs : s ∈ scanSentences t) :
    (∃ u, s = strip u) ∧ ¬s = [] := by
  rw [scanSentences] at hs
  rcases List.mem_append.mp hs with h | h
  · exact scanFold_mem t [] [] (by simp) s h
  · by_cases he : strip (List.foldl scanStep ([], []) t).2 = []
    · rw [if_pos he] at h; cases h
    · rw [if_neg he] at h
      simp at h
      subst h
      exact ⟨⟨_, rfl⟩, he⟩

theorem splitIntoSentences_ne_nil (text : Str) :
    ¬splitIntoSentences text = [] := by
  rw [splitIntoSentences]
  split_ifs <;> simp_all

theorem splitIntoSentences_content (text : Str)
    (hne : ∃ c ∈ text, isWs c = false) :
    ∀ s ∈ splitIntoSentences text, ∃ c ∈ s, isWs c = false := by
  intro s hs
  rw [splitIntoSentences] at hs
  by_cases hsc : scanSentences (normalizeWs text) = []
  · simp only [if_pos hsc] at hs
    by_cases hfb : (((pySplitLines (normalizeWs text)).map strip).filter
        (fun s => ¬s = [])) = []
    · rw [hfb] at hs
      simp at hs
      subst hs
      exact normalizeWs_content text hne
    · rw [if_neg hfb] at hs
      obtain ⟨hmem, hdec⟩ := List.mem_filter.mp hs
      obtain ⟨u, -, hu⟩ := List.mem_map.mp hmem
      subst hu
      exact strip_content u (by simpa using hdec)
  · have hne2 : ¬(if scanSentences (normalizeWs text) = [] then
        ((pySplitLines (normalizeWs text)).map strip).filter (fun s => ¬s = [])
      else scanSentences (normalizeWs text)) = [] := by
      simpa [if_neg hsc] using hsc
    rw [if_neg hsc, if_neg (by simpa [if_neg hsc] using hsc)] at hs
    obtain ⟨⟨u, hu⟩, hsne⟩ := scanSentences_mem _ s hs
    subst hu
    exact strip_content u hsne

/-- C3: on input with at least one non-whitespace character, the chunker
emits at least one non-empty chunk, and every sentence the segmenter
produces is covered by the chunks — as a whole part of some chunk, or (on
the long-sentence path) as its word sequence laid out contiguously across
the emitted parts.  Both functions are total, so no exception arises. -/
theorem c3_coverage_nonempty (tok : Str → Nat) (chunk_size overlap : Nat)
    (text : Str) (hne : ∃ c ∈ text, isWs c = false) :
    (∃ ch ∈ chunkText tok chunk_size overlap text, ¬ch = [])
    ∧ ∀ s ∈ splitIntoSentences text,
        (∃ c ∈ chunkSentences tok chunk_size overlap (splitIntoSentences text), s ∈ c)
        ∨ pyWords s <:+:
            (chunkSentences tok chunk_size overlap (splitIntoSentences text)).flatten := by
  refine ⟨?_, fun s hs => chunkSentences_covers tok chunk_size overlap _ s hs⟩
  obtain ⟨s0, hs0⟩ := List.exists_mem_of_ne_nil _ (splitIntoSentences_ne_nil text)
  obtain ⟨c0, hc0, hc0w⟩ := splitIntoSentences_content text hne s0 hs0
  rcases chunkSentences_covers tok chunk_size overlap (splitIntoSentences text) s0 hs0
    with ⟨c, hc, hsc⟩ | hinf
  · refine ⟨List.intercalate [' '] c, ?_, ?_⟩
    · rw [chunkText, chunkJoined]
      exact List.mem_map_of_mem _ hc
    · exact List.ne_nil_of_mem (mem_intercalate_of_mem [' '] c s0 hsc c0 hc0)
  · have hpw : ¬pyWords s0 = [] := pyWordsGo_ne_nil s0 ⟨c0, hc0, hc0w⟩ []
    rcases hw : pyWords s0 with _ | ⟨w, ws'⟩
    · exact absurd hw hpw
    · have hwmem : w ∈ pyWords s0 := by rw [hw]; simp
      have hwflat : w ∈ (chunkSentences tok chunk_size overlap (splitIntoSentences text)).flatten := by
        obtain ⟨u, v, huv⟩ := hinf
        rw [← huv]
        exact List.mem_append_left _ (List.mem_append_right _ hwmem)
      obtain ⟨c, hc, hwc⟩ := List.mem_flatten.mp hwflat
      obtain ⟨hwne, -⟩ := pyWordsGo_mem s0 [] (by simp) w hwmem
      obtain ⟨cw, hcw⟩ := List.exists_mem_of_ne_nil w hwne
      refine ⟨List.intercalate [' '] c, ?_, ?_⟩
      · rw [chunkText, chunkJoined]
        exact List.mem_map_of_mem _ hc
      · exact List.ne_nil_of_mem (mem_intercalate_of_mem [' '] c w hwc cw hcw)

/-- Witness for C3 at the concrete input `"Hi there. Go now."`. -/
theorem c3_coverage_nonempty_witness :
    (∃ ch ∈ chunkText tokLen 10 4 "Hi there. Go now.".data, ¬ch = [])
    ∧ ∀ s ∈ splitIntoSentences "Hi there. Go now.".data,
        (∃ c ∈ chunkSentences tokLen 10 4 (splitIntoSentences "Hi there. Go now.".data), s ∈ c)
        ∨ pyWords s <:+:
            (chunkSentences tokLen 10 4 (splitIntoSentences "Hi there. Go now.".data)).flatten :=
  c3_coverage_nonempty tokLen 10 4 "Hi there. Go now.".data (by decide)

theorem foldlSet_length (ps : List (Nat × List ℚ)) :
    ∀ init : List (Option (List ℚ)),
      (ps.foldl (fun acc p => acc.set p.1 (some p.2)) init).length = init.length := by
  induction ps with
  | nil => intro init; rfl
  | cons p ps ih =>
    intro init
    rw [List.foldl_cons, ih, List.length_set]

theorem foldlSet_not_mem (ps : List (Nat × List ℚ)) :
    ∀ (init : List (Option (List ℚ))) (i : Nat), i ∉ ps.map Prod.fst →
      (ps.foldl (fun acc p => acc.set p.1 (some p.2)) init)[i]? = init[i]? := by
  induction ps with
  | nil => intro init i _; rfl
  | cons p ps ih =>
    intro init i hi
    rw [List.map_cons] at hi
    have h1 : ¬i = p.1 := fun he => hi (he ▸ List.mem_cons_self _ _)
    have h2 : i ∉ ps.map Prod.fst := fun hm => hi (List.mem_cons_of_mem _ hm)
    rw [List.foldl_cons, ih _ i h2, List.getElem?_set_ne (fun he => h1 he.symm)]


theorem foldlSet_mem (ps : List (Nat × List ℚ)) :
    ∀ (init : List (Option (List ℚ))) (i : Nat) (v : List ℚ),
      (ps.map Prod.fst).Nodup → (i, v) ∈ ps → i < init.length →
      (ps.foldl (fun acc p => acc.set p.1 (some p.2)) init)[i]? = some (some v) := by
  induction ps with
  | nil => intro init i v _ h; cases h
  | cons p ps ih =>
    intro init i v hnd hmem hlt
    rw [List.map_cons, List.nodup_cons] at hnd
    rcases List.mem_cons.mp hmem with rfl | h2
    · rw [List.foldl_cons, foldlSet_not_mem ps _ i hnd.1,
        List.getElem?_set_self (by simpa using hlt)]
    · have hi : i ∈ ps.map Prod.fst := List.mem_map_of_mem Prod.fst h2
      have hne : ¬p.1 = i := fun he => hnd.1 (he ▸ hi)
      rw [List.foldl_cons]
      exact ih _ i v hnd.2 h2 (by simpa using hlt)

theorem filter_range_decompose (p : Nat → Bool) (n i : Nat) (hin : i < n)
    (hpi : p i = true) :
    ∃ rest, (List.range n).filter p
      = (List.range i).filter p ++ i :: rest := by
  have hn : n = i + (n - i) := by omega
  have hm : n - i = (n - i - 1) + 1 := by omega
  rw [hn, List.range_add, List.filter_append, hm, List.range_succ_eq_map]
  refine ⟨(((List.range (n - i - 1)).map Nat.succ).map (fun x => i + x)).filter p, ?_⟩
  simp only [List.map_cons, List.filter_cons, Nat.add_zero, hpi, if_true]

/-- C8 counterexample: on the all-empty batch `[""]` the service raises
`ValueError` instead of returning a same-length list. -/
theorem c8_counterexample : ¬ c8Asserted := by
  intro hcl
  obtain ⟨es, hes, -, -⟩ := hcl (fun l => l.map (fun _ => [])) [""]
    (fun l => by simp)
  rw [show getEmbeddingsBatch (fun l => l.map (fun _ => ([] : List ℚ))) [""]
      = Except.error "All texts are empty" from rfl] at hes
  cases hes

/-- C8 amended: provided at least one input survives cleaning (otherwise the
service raises `ValueError`), the batch result has one entry per input in
input order: `none` exactly at the positions of cleaned-empty inputs, and at
each non-empty position the provider's vector for that input — the one at
the position's rank among the non-empty inputs. -/
theorem c8_batch_order (api : List String → List (List ℚ)) (texts : List String)
    (hsome : ∃ t ∈ texts, ¬cleanText t = "")
    (hlen : ∀ l, (api l).length = l.length) :
    ∃ es, getEmbeddingsBatch api texts = .ok es
      ∧ es.length = texts.length
      ∧ ∀ i : Nat, i < texts.length →
          ((cleanText (texts.getD i "") = "" → es.getD i none = none)
            ∧ (¬cleanText (texts.getD i "") = "" →
                es.getD i none = some ((api ((nonEmptyIndices (texts.map cleanText)).map
                    (fun j => (texts.map cleanText).getD j ""))).getD
                  (neRank (texts.map cleanText) i) []))) := by
  set cleaned := texts.map cleanText with hcleaned
  set idxs := nonEmptyIndices cleaned with hidxs
  set nets := idxs.map (fun i => cleaned.getD i "") with hnets
  set data := api nets with hdata
  have hclen : cleaned.length = texts.length := by simp [hcleaned]
  have hgetD : ∀ i : Nat, i < texts.length →
      cleaned.getD i "" = cleanText (texts.getD i "") := by
    intro i hi
    rw [List.getD_eq_getElem?_getD, List.getD_eq_getElem?_getD, hcleaned,
      List.getElem?_map, List.getElem?_eq_getElem hi]
    rfl
  have hmem_idxs : ∀ i : Nat, i ∈ idxs ↔ i < texts.length ∧ ¬cleaned.getD i "" = "" := by
    intro i
    rw [hidxs, nonEmptyIndices, List.mem_filter, List.mem_range, hclen]
    simp
  have hne : ¬nets = [] := by
    obtain ⟨t, ht, htc⟩ := hsome
    obtain ⟨k, hk, hkt⟩ := List.mem_iff_getElem.mp ht
    have hkne : ¬cleaned.getD k "" = "" := by
      rw [hgetD k hk, List.getD_eq_getElem?_getD, List.getElem?_eq_getElem hk, hkt]
      exact htc
    have : k ∈ idxs := (hmem_idxs k).mpr ⟨hk, hkne⟩
    rw [hnets]
    simp only [ne_eq, List.map_eq_nil_iff]
    exact List.ne_nil_of_mem this
  have hdl : data.length = idxs.length := by
    rw [hdata, hlen, hnets, List.length_map]
  have hmapfst : (idxs.zip data).map Prod.fst = idxs :=
    List.map_fst_zip idxs data (le_of_eq hdl.symm)
  have hnodup : idxs.Nodup := List.Nodup.filter _ (List.nodup_range _)
  refine ⟨(idxs.zip data).foldl (fun acc p => acc.set p.1 (some p.2))
      (List.replicate texts.length none), ?_, ?_, ?_⟩
  · simp only [getEmbeddingsBatch, ← hcleaned, ← hidxs, ← hnets, ← hdata, if_neg hne]
  · rw [foldlSet_length, List.length_replicate]
  · intro i hi
    constructor
    · intro hempty
      have hni : i ∉ idxs := fun hmem =>
        ((hmem_idxs i).mp hmem).2 (by rw [hgetD i hi]; exact hempty)
      have hni2 : i ∉ (idxs.zip data).map Prod.fst := by
        rw [hmapfst]; exact hni
      rw [List.getD_eq_getElem?_getD, foldlSet_not_mem _ _ i hni2,
        List.getElem?_replicate, if_pos hi]
      rfl
    · intro hnonempty
      have hieq : ¬cleaned.getD i "" = "" := by rw [hgetD i hi]; exact hnonempty
      obtain ⟨rest, hrest⟩ := filter_range_decompose
        (fun j => decide ¬cleaned.getD j "" = "") cleaned.length i (hclen ▸ hi)
        (by simpa using hieq)
      have hidxs_eq : idxs = (List.range i).filter
          (fun j => decide ¬cleaned.getD j "" = "") ++ i :: rest := by
        rw [hidxs, nonEmptyIndices]
        exact hrest
      set A := (List.range i).filter (fun j => decide ¬cleaned.getD j "" = "") with hA
      have hrank : neRank cleaned i = A.length := rfl
      have hrlt : A.length < idxs.length := by
        rw [hidxs_eq]
        simp
      have hrdata : A.length < data.length := hdl ▸ hrlt
      have hrzip : A.length < (idxs.zip data).length := by
        rw [List.length_zip]
        omega
      have hidxr : idxs[A.length] = i := by
        simp_rw [hidxs_eq]
        rw [List.getElem_append_right (le_refl A.length)]
        simp
      have hzipel : (idxs.zip data)[A.length] = (i, data[A.length]) := by
        rw [List.getElem_zip, hidxr]
      have hmem : (i, data[A.length]) ∈ idxs.zip data := by
        rw [← hzipel]
        exact List.getElem_mem hrzip
      have hfin := foldlSet_mem (idxs.zip data) (List.replicate texts.length none) i
        (data[A.length]) (by rw [hmapfst]; exact hnodup) hmem
        (by rw [List.length_replicate]; exact hi)
      rw [List.getD_eq_getElem?_getD, hfin]
      rw [hrank]
      rw [List.getD_eq_getElem?_getD, List.getElem?_eq_getElem hrdata]
      rfl

/-- Witness for the amended C8 on the batch `["hi", "", "yo"]` with a
provider returning `[1]` for every input. -/
theorem c8_batch_order_witness :
    ∃ es, getEmbeddingsBatch (fun l => l.map (fun _ => ([1] : List ℚ)))
        ["hi", "", "yo"] = .ok es
      ∧ es.length = (["hi", "", "yo"] : List String).length
      ∧ ∀ i : Nat, i < (["hi", "", "yo"] : List String).length →
          ((cleanText ((["hi", "", "yo"] : List String).getD i "") = "" →
              es.getD i none = none)
            ∧ (¬cleanText ((["hi", "", "yo"] : List String).getD i "") = "" →
                es.getD i none = some (((fun l : List String => l.map (fun _ => ([1] : List ℚ)))
                    ((nonEmptyIndices ((["hi", "", "yo"] : List String).map cleanText)).map
                      (fun j => ((["hi", "", "yo"] : List String).map cleanText).getD j ""))).getD
                  (neRank ((["hi", "", "yo"] : List String).map cleanText) i) []))) :=
  c8_batch_order (fun l => l.map (fun _ => ([1] : List ℚ))) ["hi", "", "yo"]
    ⟨"hi", by decide, by decide⟩ (fun l => by simp)
